import Mathlib

/-!
Shallow embedding of the file-tree builder, pricing selector, identifier
resolver, source-file retrieval and search-input validation of the
`agent-actor-inspector` repository (`src/utils.py`, `src/tools_2.py`),
together with theorems settling the specification claims about them.

Python dictionaries are embedded as insertion-ordered association lists,
`None` as `Option.none`, and raised exceptions as `Except.error` carrying
the message.
-/

set_option maxHeartbeats 1000000

/-! ## File tree builder (`generate_file_tree`, src/utils.py lines 34-66) -/

/-- Value stored in the nested file-tree mapping: either the Python `None`
leaf marker placed at the last path segment, or a nested dictionary
(embedded as an insertion-ordered association list). -/
inductive Node where
  | leaf : Node
  | dir : List (String × Node) → Node

/-- A Python dictionary level of the file tree: insertion-ordered
association list from path segments to nodes. -/
abbrev Dict := List (String × Node)

/-- Dictionary lookup `d[k]` / `k in d`: first entry with the given key. -/
def getKey (d : Dict) (k : String) : Option Node :=
  match d with
  | [] => none
  | (k2, v) :: rest => if k2 = k then some v else getKey rest k

/-- Python dictionary assignment `d[k] = v`: an existing key keeps its
position and gets the new value, an absent key is appended at the end. -/
def setKey (d : Dict) (k : String) (v : Node) : Dict :=
  match d with
  | [] => [(k, v)]
  | (k2, v2) :: rest => if k2 = k then (k, v) :: rest else (k2, v2) :: setKey rest k v

/-- Helper for `splitSlash`: accumulates the current segment (reversed). -/
def splitSlashAux : List Char → List Char → List String
  | [], acc => [String.mk acc.reverse]
  | c :: cs, acc =>
      if c = '/' then String.mk acc.reverse :: splitSlashAux cs []
      else splitSlashAux cs (c :: acc)

/-- Python `s.split('/')` (always returns a nonempty list; the empty string
splits to `[""]`). -/
def splitSlash (s : String) : List String := splitSlashAux s.data []

/-- Message of the Python `KeyError` raised by `file_info['name']` when the
record has no `name` key. -/
def keyErrorName : String := "KeyError: name"

/-- Message of the Python `TypeError` raised when the traversal steps into a
`None` leaf marker (`NoneType` is neither subscriptable nor iterable). -/
def typeErrorNone : String := "TypeError: NoneType"

/-- Inner loop of `generate_file_tree` for one record, processing the path
segments `part :: rest`: the last segment is assigned the `None` leaf
marker; an earlier segment is looked up (creating a fresh `{}` when
absent) and descended into; descending into a `None` leaf raises a
`TypeError`, exactly as the Python loop does. -/
def insertParts (d : Dict) (part : String) (rest : List String) : Except String Dict :=
  match rest with
  | [] => Except.ok (setKey d part Node.leaf)
  | p :: more =>
      match getKey d part with
      | none =>
          match insertParts [] p more with
          | Except.error e => Except.error e
          | Except.ok sub => Except.ok (d ++ [(part, Node.dir sub)])
      | some Node.leaf => Except.error typeErrorNone
      | some (Node.dir sub) =>
          match insertParts sub p more with
          | Except.error e => Except.error e
          | Except.ok sub2 => Except.ok (setKey d part (Node.dir sub2))

/-- Processing of a single record by `generate_file_tree`: a record is
embedded as its optional `name` field (`none` = the record lacks the
`name` key, so `file_info['name']` raises `KeyError`); otherwise the
name is split on `/` and inserted into the tree. -/
def insertRecord (d : Dict) (r : Option String) : Except String Dict :=
  match r with
  | none => Except.error keyErrorName
  | some nm =>
      match splitSlash nm with
      | [] => Except.ok d
      | part :: rest => insertParts d part rest

/-- Fold of `generate_file_tree` over the record list, propagating the
first raised exception. -/
def gftAux (d : Dict) : List (Option String) → Except String Dict
  | [] => Except.ok d
  | r :: rs =>
      match insertRecord d r with
      | Except.error e => Except.error e
      | Except.ok d2 => gftAux d2 rs

/-- Embedding of `generate_file_tree` (src/utils.py lines 34-66): builds the
nested mapping from an initially empty tree. -/
def generate_file_tree (files : List (Option String)) : Except String Dict :=
  gftAux [] files

/-- All root-to-leaf key paths of a tree, in traversal order. -/
def branches : Dict → List (List String)
  | [] => []
  | (k, Node.leaf) :: rest => [k] :: branches rest
  | (k, Node.dir d) :: rest => (branches d).map (k :: ·) ++ branches rest

/-- Number of `None` leaf markers in a tree. -/
def leafCount : Dict → Nat
  | [] => 0
  | (_, Node.leaf) :: rest => 1 + leafCount rest
  | (_, Node.dir d) :: rest => leafCount d + leafCount rest

/-- Walking the key path `q` from `d` ends exactly at a leaf marker. -/
def leafAt : Dict → List String → Bool
  | _, [] => false
  | d, [x] =>
      match getKey d x with
      | some Node.leaf => true
      | _ => false
  | d, x :: y :: r =>
      match getKey d x with
      | some (Node.dir sub) => leafAt sub (y :: r)
      | _ => false

/-- Segment-list order: `pathLe p q` holds when `p` is an initial run of
`q` (every segment of `p` matches the corresponding segment of `q`). -/
def pathLe : List String → List String → Bool
  | [], _ => true
  | _ :: _, [] => false
  | a :: as, b :: bs => a == b && pathLe as bs

/-- Keys of all levels of the tree are duplicate-free (the invariant every
tree built by `generate_file_tree` enjoys, since Python dictionaries
cannot repeat keys). -/
def wfD : Dict → Bool
  | [] => true
  | (k, Node.leaf) :: rest => (getKey rest k).isNone && wfD rest
  | (k, Node.dir d) :: rest => (getKey rest k).isNone && wfD d && wfD rest

/-! ## Pricing selector (`tool_get_actor_pricing_information`, src/tools_2.py lines 54-81) -/

/-- One entry of the `pricingInfos` list: the `startedAt` timestamp
(embedded as an integer timeline, Python compares `datetime`s totally)
plus an abstract tag standing for the remaining fields. -/
structure PricingEntry where
  startedAt : Int
  tag : Nat
deriving DecidableEq

/-- Loop of the pricing selector with the running `current_pricing`
accumulator: scan in list order, stop at the first entry whose
`startedAt` is strictly after `now`, otherwise remember the entry. -/
def selectPricingGo (now : Int) (cur : Option PricingEntry) :
    List PricingEntry → Option PricingEntry
  | [] => cur
  | e :: rest =>
      if now < e.startedAt then cur
      else selectPricingGo now (some e) rest

/-- The `current_pricing` computed by the loop of
`tool_get_actor_pricing_information`, starting from `None`. -/
def selectPricing (entries : List PricingEntry) (now : Int) : Option PricingEntry :=
  selectPricingGo now none entries

/-- Actor data consumed by the pricing tool: the optional `pricingInfos`
field (`none` = key absent; Python treats an absent key and an empty
list alike, both being falsy). -/
structure ActorPricingData where
  pricingInfos : Option (List PricingEntry)

/-- Outcome of `tool_get_actor_pricing_information`: the two `ValueError`s
raised explicitly by the source, the `ValidationError` that
`PricingInfo.model_validate(None)` raises when no entry was selected,
or the selected entry. -/
inductive PricingResult where
  | notFound (actorId : String)
  | noPricingInfo (actorId : String)
  | validateNoneError
  | ok (e : PricingEntry)
deriving DecidableEq

/-- Embedding of `tool_get_actor_pricing_information` (src/tools_2.py lines
54-81). The remote call is abstracted into the `actor` argument
(`none` = falsy response, the `Actor not found` branch). `if not
(pricing_info := actor.get('pricingInfos'))` raises the
`Failed to find pricing information` error when the field is absent or
the list is empty. When the scan selects no entry, `current_pricing`
is still `None` and `PricingInfo.model_validate(None)` fails with a
validation error; a selected entry is returned. -/
def tool_get_actor_pricing_information (actorId : String)
    (actor : Option ActorPricingData) (now : Int) : PricingResult :=
  match actor with
  | none => PricingResult.notFound actorId
  | some a =>
      match a.pricingInfos with
      | none => PricingResult.noPricingInfo actorId
      | some [] => PricingResult.noPricingInfo actorId
      | some (e :: es) =>
          match selectPricing (e :: es) now with
          | none => PricingResult.validateNoneError
          | some r => PricingResult.ok r

/-! ## Identifier resolver (`get_actor_id`, src/utils.py lines 11-31) -/

/-- A remote actor object, embedded as an association list of string
fields (only the fields the resolver reads matter). -/
abbrev ActorObj := List (String × String)

/-- Lookup of a string field, Python `obj.get(k)`. -/
def getField (obj : ActorObj) (k : String) : Option String :=
  match obj with
  | [] => none
  | (k2, v) :: rest => if k2 = k then some v else getField rest k

/-- Embedding of `get_actor_id` (src/utils.py lines 11-31). The remote
`apify_client.actor(actor_name).get()` is abstracted into `resp`;
`none` and the empty object are both falsy, triggering the not-found
error; a missing or empty `id` field (both falsy) triggers the
failed-to-get-ID error. -/
def get_actor_id (actorName : String) (resp : Option ActorObj) : Except String String :=
  match resp with
  | none => Except.error ("Actor " ++ actorName ++ " not found.")
  | some [] => Except.error ("Actor " ++ actorName ++ " not found.")
  | some (f :: fs) =>
      match getField (f :: fs) "id" with
      | none => Except.error ("Failed to get the Actor object ID for " ++ actorName ++ ".")
      | some "" => Except.error ("Failed to get the Actor object ID for " ++ actorName ++ ".")
      | some i => Except.ok i

/-! ## Source file retrieval (`get_actor_source_files`, src/utils.py lines 109-128) -/

/-- ASCII lowering of one character, modelling Python `str.lower` on the
ASCII range that the `format` values use. -/
def charLower (c : Char) : Char :=
  if 65 ≤ c.toNat ∧ c.toNat ≤ 90 then Char.ofNat (c.toNat + 32) else c

/-- Python `s.lower()`. -/
def strLower (s : String) : String := String.mk (s.data.map charLower)

/-- One entry of a version's `sourceFiles` list: file name and optional
`format` field (`x.get('format', '')` yields `""` when absent). -/
structure SourceFile where
  name : String
  format : Option String
deriving DecidableEq

/-- One entry of the version list: optional `buildTag` and optional
`sourceFiles` fields. -/
structure ActorVersion where
  buildTag : Option String
  sourceFiles : Option (List SourceFile)

/-- The predicate of the `filter` on versions:
`x.get('buildTag') == 'latest'` (an absent tag is `None`, never equal). -/
def isLatestVersion (v : ActorVersion) : Bool :=
  v.buildTag == some "latest"

/-- The predicate of the `filter` on source files:
`x.get('format', '').lower() == 'text'`. -/
def isTextFormat (f : SourceFile) : Bool :=
  strLower (f.format.getD "") == "text"

/-- Embedding of `get_actor_source_files` (src/utils.py lines 109-128).
The remote calls are abstracted into `resp` (the actor object used by
`get_actor_id`) and `versions`. `next(filter(...), None)` takes the
first version whose `buildTag` is `latest`; when there is none the
function returns the empty list. `filter` over a `None` `sourceFiles`
raises a `TypeError`. -/
def get_actor_source_files (actorName : String) (resp : Option ActorObj)
    (versions : List ActorVersion) : Except String (List SourceFile) :=
  match get_actor_id actorName resp with
  | Except.error e => Except.error e
  | Except.ok _ =>
      match versions.find? isLatestVersion with
      | none => Except.ok []
      | some v =>
          match v.sourceFiles with
          | none => Except.error typeErrorNone
          | some sfs => Except.ok (sfs.filter isTextFormat)

/-! ## Search input schema (`SearchRelatedActorsInput`, src/tools_2.py lines 24-29) -/

/-- Embedding of the pydantic input schema `SearchRelatedActorsInput`:
field values of one candidate invocation. -/
structure SearchRelatedActorsInput where
  search : String
  limit : Int
  offset : Int

/-- The pydantic range constraints declared on the schema fields:
`limit` with `gt=0, le=100` and `offset` with `ge=0`; an input is
accepted by the schema exactly when all constraints hold. -/
def validSearchInput (i : SearchRelatedActorsInput) : Bool :=
  (0 < i.limit) && (i.limit ≤ 100) && (0 ≤ i.offset)

/-! ## Basic lemmas: paths, lookups, branches -/

/-- Branch list of a single node: a leaf contributes the empty relative
path, a directory contributes its branches. -/
def nodeBranches : Node → List (List String)
  | Node.leaf => [[]]
  | Node.dir d => branches d

theorem branches_cons (k : String) (v : Node) (rest : Dict) :
    branches ((k, v) :: rest) = (nodeBranches v).map (k :: ·) ++ branches rest := by
  cases v <;> simp [branches, nodeBranches]

theorem branches_append (d1 d2 : Dict) :
    branches (d1 ++ d2) = branches d1 ++ branches d2 := by
  induction d1 with
  | nil => simp [branches]
  | cons e rest ih =>
      obtain ⟨k, v⟩ := e
      rw [List.cons_append, branches_cons, branches_cons, ih, List.append_assoc]

theorem pathLe_iff_append (p q : List String) :
    pathLe p q = true ↔ ∃ r, q = p ++ r := by
  induction p generalizing q with
  | nil => simp [pathLe]
  | cons a as ih =>
      cases q with
      | nil => simp [pathLe]
      | cons b bs =>
          simp only [pathLe, Bool.and_eq_true, beq_iff_eq, ih]
          constructor
          · rintro ⟨rfl, r, rfl⟩
            exact ⟨r, rfl⟩
          · rintro ⟨r, hr⟩
            rw [List.cons_append] at hr
            injection hr with h1 h2
            exact ⟨h1.symm, r, h2⟩

theorem pathLe_refl (p : List String) : pathLe p p = true := by
  rw [pathLe_iff_append]; exact ⟨[], by simp⟩

theorem pathLe_length {p q : List String} (h : pathLe p q = true) :
    p.length ≤ q.length := by
  rw [pathLe_iff_append] at h
  obtain ⟨r, rfl⟩ := h
  simp

theorem pathLe_cons (a b : String) (p q : List String) :
    pathLe (a :: p) (b :: q) = true ↔ a = b ∧ pathLe p q = true := by
  simp [pathLe]

theorem getKey_eq_none_iff (d : Dict) (k : String) :
    getKey d k = none ↔ ∀ v, (k, v) ∉ d := by
  induction d with
  | nil => simp [getKey]
  | cons e rest ih =>
      obtain ⟨k2, v2⟩ := e
      by_cases h : k2 = k
      · subst h
        constructor
        · intro hnone
          simp [getKey] at hnone
        · intro hall
          exact absurd (List.mem_cons_self _ _) (hall v2)
      · simp only [getKey, if_neg h, ih, List.mem_cons]
        constructor
        · intro hall v hv
          rcases hv with hv | hv
          · injection hv with h1 _
            exact absurd h1.symm h
          · exact hall v hv
        · intro hall v hv
          exact hall v (Or.inr hv)

theorem getKey_append (d1 d2 : Dict) (k : String) :
    getKey (d1 ++ d2) k = match getKey d1 k with
      | some v => some v
      | none => getKey d2 k := by
  induction d1 with
  | nil => simp [getKey]
  | cons e rest ih =>
      obtain ⟨k2, v2⟩ := e
      by_cases h : k2 = k <;> simp [getKey, h, ih]

theorem setKey_of_getKey_none {d : Dict} {k : String} (h : getKey d k = none) (v : Node) :
    setKey d k v = d ++ [(k, v)] := by
  induction d with
  | nil => simp [setKey]
  | cons e rest ih =>
      obtain ⟨k2, v2⟩ := e
      by_cases hk : k2 = k
      · subst hk; simp [getKey] at h
      · simp only [getKey, if_neg hk] at h
        simp [setKey, hk, ih h]

theorem getKey_setKey_self (d : Dict) (k : String) (v : Node) :
    getKey (setKey d k v) k = some v := by
  induction d with
  | nil => simp [setKey, getKey]
  | cons e rest ih =>
      obtain ⟨k2, v2⟩ := e
      by_cases hk : k2 = k
      · subst hk; simp [setKey, getKey]
      · simp [setKey, getKey, hk, ih]

theorem getKey_setKey_ne (d : Dict) {k k2 : String} (v : Node) (h : k2 ≠ k) :
    getKey (setKey d k v) k2 = getKey d k2 := by
  induction d with
  | nil => simp [setKey, getKey, Ne.symm h]
  | cons e rest ih =>
      obtain ⟨k3, v3⟩ := e
      by_cases hk : k3 = k
      · subst hk
        simp [setKey, getKey, Ne.symm h]
      · simp [setKey, getKey, hk, ih]

theorem mem_branches_ne_nil {d : Dict} {b : List String} (h : b ∈ branches d) : b ≠ [] := by
  induction d with
  | nil => simp [branches] at h
  | cons e rest ih =>
      obtain ⟨k, v⟩ := e
      rw [branches_cons] at h
      rcases List.mem_append.mp h with h | h
      · obtain ⟨t, _, rfl⟩ := List.mem_map.mp h
        simp
      · exact ih h

theorem mem_branches_head {d : Dict} {k : String} {t : List String}
    (h : k :: t ∈ branches d) : ∃ v, (k, v) ∈ d ∧ t ∈ nodeBranches v := by
  induction d with
  | nil => simp [branches] at h
  | cons e rest ih =>
      obtain ⟨k2, v2⟩ := e
      rw [branches_cons] at h
      rcases List.mem_append.mp h with h | h
      · obtain ⟨t2, ht2, he⟩ := List.mem_map.mp h
        injection he with h1 h2
        subst h1; subst h2
        exact ⟨v2, List.mem_cons_self _ _, ht2⟩
      · obtain ⟨v, hv, ht⟩ := ih h
        exact ⟨v, List.mem_cons_of_mem _ hv, ht⟩

theorem leafCount_eq_length_branches (d : Dict) : leafCount d = (branches d).length := by
  induction d using leafCount.induct with
  | case1 => simp [leafCount, branches]
  | case2 k rest ih =>
      simp only [leafCount, branches, List.length_cons, ih]
      omega
  | case3 k sub rest ih1 ih2 => simp [leafCount, branches, ih1, ih2]

/-- C4: building from `["a/b", "a/c"]` yields `{a: {b: leaf, c: leaf}}`,
building from `["x"]` yields `{x: leaf}`, and the leaf marker is distinct
from an empty mapping. -/
theorem generate_file_tree_examples_and_leaf_marker :
    generate_file_tree [some "a/b", some "a/c"] =
      Except.ok [("a", Node.dir [("b", Node.leaf), ("c", Node.leaf)])] ∧
    generate_file_tree [some "x"] = Except.ok [("x", Node.leaf)] ∧
    Node.leaf ≠ Node.dir [] := by
  refine ⟨rfl, rfl, fun h => Node.noConfusion h⟩

/-! ## Pricing selector lemmas -/

theorem selectPricingGo_eq_getLast? (now : Int) (l : List PricingEntry) (cur : Option PricingEntry) :
    selectPricingGo now cur l =
      match (l.takeWhile (fun x => decide (x.startedAt ≤ now))).getLast? with
      | none => cur
      | some r => some r := by
  induction l generalizing cur with
  | nil => simp [selectPricingGo]
  | cons e rest ih =>
      by_cases h : now < e.startedAt
      · have htw : List.takeWhile (fun x : PricingEntry => decide (x.startedAt ≤ now)) (e :: rest)
            = [] :=
          List.takeWhile_cons_of_neg (by simp only [decide_eq_true_eq]; omega)
        simp [selectPricingGo, if_pos h, htw]
      · have htw : List.takeWhile (fun x : PricingEntry => decide (x.startedAt ≤ now)) (e :: rest)
            = e :: List.takeWhile (fun x : PricingEntry => decide (x.startedAt ≤ now)) rest :=
          List.takeWhile_cons_of_pos (by simp only [decide_eq_true_eq]; omega)
        rw [show selectPricingGo now cur (e :: rest) = selectPricingGo now (some e) rest by
              simp [selectPricingGo, if_neg h],
            ih, htw]
        cases htw2 : rest.takeWhile (fun x : PricingEntry => decide (x.startedAt ≤ now)) with
        | nil => simp
        | cons x xs =>
            obtain ⟨r, hr⟩ := Option.isSome_iff_exists.mp
              (List.getLast?_isSome.mpr (by simp : x :: xs ≠ []))
            rw [List.getLast?_cons_cons, hr]

theorem selectPricingGo_all_future (now : Int) (l : List PricingEntry)
    (cur : Option PricingEntry) (h : ∀ e ∈ l, now < e.startedAt) :
    selectPricingGo now cur l = cur := by
  cases l with
  | nil => rfl
  | cons e rest =>
      simp [selectPricingGo, if_pos (h e (List.mem_cons_self _ _))]

theorem sorted_getLast?_max (l : List PricingEntry)
    (hs : List.Pairwise (fun a b => a.startedAt ≤ b.startedAt) l)
    (r : PricingEntry) (hr : l.getLast? = some r) :
    ∀ x ∈ l, x.startedAt ≤ r.startedAt := by
  obtain ⟨ys, rfl⟩ := List.getLast?_eq_some_iff.mp hr
  intro x hx
  rcases List.mem_append.mp hx with hx | hx
  · have := (List.pairwise_append.mp hs).2.2
    exact this x hx r (List.mem_singleton_self _)
  · rw [List.mem_singleton.mp hx]

theorem mem_takeWhile_of_sorted (now : Int) (entries : List PricingEntry)
    (hs : List.Pairwise (fun a b => a.startedAt ≤ b.startedAt) entries)
    (x : PricingEntry) (hx : x ∈ entries) (hxle : x.startedAt ≤ now) :
    x ∈ entries.takeWhile (fun e => decide (e.startedAt ≤ now)) := by
  induction entries with
  | nil => simp at hx
  | cons f fs ih =>
      by_cases hf : f.startedAt ≤ now
      · rw [List.takeWhile_cons_of_pos (by simp only [decide_eq_true_eq]; omega)]
        rcases List.mem_cons.mp hx with rfl | hxfs
        · exact List.mem_cons_self _ _
        · exact List.mem_cons_of_mem _ (ih (List.Pairwise.of_cons hs) hxfs)
      · exfalso
        rcases List.mem_cons.mp hx with rfl | hxfs
        · exact hf hxle
        · have hfx : f.startedAt ≤ x.startedAt :=
            (List.pairwise_cons.mp hs).1 x hxfs
          omega

/-- C2: the pricing selector scans in list order, stops at the first entry
whose `startedAt` is strictly after `now`, and keeps the previous entry
(it returns the last entry of the longest initial run of entries not
after `now`); under the caller precondition that the entries are sorted
ascending by `startedAt`, the selected entry is the one with the latest
`startedAt` that is not strictly after `now`; and on entries with
`startedAt` equal to `[T-10, T-5, T+5]` with `now = T` it selects the
`T-5` entry. -/
theorem selectPricing_spec :
    (∀ (entries : List PricingEntry) (now : Int),
      selectPricing entries now =
        (entries.takeWhile (fun x => decide (x.startedAt ≤ now))).getLast?) ∧
    (∀ (entries : List PricingEntry) (now : Int),
      List.Pairwise (fun a b => a.startedAt ≤ b.startedAt) entries →
      ∀ w ∈ entries, w.startedAt ≤ now →
      ∃ r, selectPricing entries now = some r ∧ r ∈ entries ∧ r.startedAt ≤ now ∧
        ∀ x ∈ entries, x.startedAt ≤ now → x.startedAt ≤ r.startedAt) ∧
    (∀ T : Int,
      selectPricing [⟨T - 10, 0⟩, ⟨T - 5, 1⟩, ⟨T + 5, 2⟩] T = some ⟨T - 5, 1⟩) := by
  have hchar : ∀ (entries : List PricingEntry) (now : Int),
      selectPricing entries now =
        (entries.takeWhile (fun x => decide (x.startedAt ≤ now))).getLast? := by
    intro entries now
    rw [selectPricing, selectPricingGo_eq_getLast?]
    cases (entries.takeWhile (fun x : PricingEntry => decide (x.startedAt ≤ now))).getLast? <;> rfl
  refine ⟨hchar, ?_, ?_⟩
  · intro entries now hs w hw hwle
    have hwtake := mem_takeWhile_of_sorted now entries hs w hw hwle
    have hne : entries.takeWhile (fun e => decide (e.startedAt ≤ now)) ≠ [] := by
      intro hnil
      rw [hnil] at hwtake
      simp at hwtake
    obtain ⟨r, hr⟩ := Option.isSome_iff_exists.mp (List.getLast?_isSome.mpr hne)
    refine ⟨r, by rw [hchar, hr], ?_, ?_, ?_⟩
    · exact List.Sublist.mem (List.mem_of_getLast?_eq_some hr) (List.takeWhile_sublist _)
    · have := List.mem_takeWhile_imp (List.mem_of_getLast?_eq_some hr)
      simpa using this
    · intro x hx hxle
      have hxtake := mem_takeWhile_of_sorted now entries hs x hx hxle
      exact sorted_getLast?_max _
        (List.Pairwise.sublist (List.takeWhile_sublist _) hs) r hr x hxtake
  · intro T
    have h1 : ¬ T < T - 10 := by omega
    have h2 : ¬ T < T - 5 := by omega
    have h3 : T < T + 5 := by omega
    simp [selectPricing, selectPricingGo, h1, h2, h3]

theorem selectPricing_spec_witness :
    ∃ r, selectPricing [⟨-10, 0⟩, ⟨-5, 1⟩, ⟨5, 2⟩] 0 = some r ∧
      r ∈ [(⟨-10, 0⟩ : PricingEntry), ⟨-5, 1⟩, ⟨5, 2⟩] ∧ r.startedAt ≤ 0 ∧
      ∀ x ∈ [(⟨-10, 0⟩ : PricingEntry), ⟨-5, 1⟩, ⟨5, 2⟩],
        x.startedAt ≤ 0 → x.startedAt ≤ r.startedAt :=
  selectPricing_spec.2.1 [⟨-10, 0⟩, ⟨-5, 1⟩, ⟨5, 2⟩] 0 (by decide) ⟨-10, 0⟩ (by decide) (by decide)

/-- C3 counterexample: an actor whose `pricingInfos` field holds the empty
list is reported with exactly the same missing-pricing-information
outcome as an actor whose `pricingInfos` field is absent, because
`if not pricing_info` treats both alike; so in the empty-list case the
code does not report a condition distinct from the missing-data error. -/
theorem tool_pricing_empty_list_eq_missing_data :
    tool_get_actor_pricing_information "actor1" (some ⟨some []⟩) 0 =
      PricingResult.noPricingInfo "actor1" ∧
    tool_get_actor_pricing_information "actor1" (some ⟨none⟩) 0 =
      PricingResult.noPricingInfo "actor1" :=
  ⟨rfl, rfl⟩

/-- C3 amended: for a nonempty pricing list in which every entry has
`startedAt` strictly after `now`, the scan selects no entry and the
tool fails at the final `model_validate(None)` step, an outcome
distinct both from the actor-not-found failure and from the
missing-pricing-information error; the empty-list case instead takes
the missing-pricing-information branch. -/
theorem tool_pricing_all_future_distinct :
    ∀ (actorId : String) (e : PricingEntry) (es : List PricingEntry) (now : Int),
      (∀ x ∈ e :: es, now < x.startedAt) →
      tool_get_actor_pricing_information actorId (some ⟨some (e :: es)⟩) now =
        PricingResult.validateNoneError ∧
      (∀ id2 : String, PricingResult.validateNoneError ≠ PricingResult.notFound id2) ∧
      (∀ id2 : String, PricingResult.validateNoneError ≠ PricingResult.noPricingInfo id2) := by
  intro actorId e es now hall
  refine ⟨?_, fun id2 h => PricingResult.noConfusion h,
    fun id2 h => PricingResult.noConfusion h⟩
  have hsel : selectPricing (e :: es) now = none := by
    rw [selectPricing]
    exact selectPricingGo_all_future now _ none hall
  simp [tool_get_actor_pricing_information, hsel]

theorem tool_pricing_all_future_witness :
    tool_get_actor_pricing_information "a" (some ⟨some [⟨5, 0⟩]⟩) 0 =
      PricingResult.validateNoneError :=
  (tool_pricing_all_future_distinct "a" ⟨5, 0⟩ [] 0 (by decide)).1

/-! ## Identifier resolver, source files, search input: claim theorems -/

/-- C8: when the remote lookup yields no (truthy) record the resolver
fails with a not-found error whose message contains the actor name,
and when the record exists but has no `id` field it fails with the
failed-to-get-ID error, which also names the identifier used. -/
theorem get_actor_id_errors :
    (∀ actorName : String,
      get_actor_id actorName none = Except.error ("Actor " ++ actorName ++ " not found.") ∧
      get_actor_id actorName (some []) =
        Except.error ("Actor " ++ actorName ++ " not found.") ∧
      ∃ s1 s2, "Actor " ++ actorName ++ " not found." = s1 ++ actorName ++ s2) ∧
    (∀ (actorName : String) (obj : ActorObj), obj ≠ [] → getField obj "id" = none →
      get_actor_id actorName (some obj) =
        Except.error ("Failed to get the Actor object ID for " ++ actorName ++ ".") ∧
      ∃ s1 s2, "Failed to get the Actor object ID for " ++ actorName ++ "." =
        s1 ++ actorName ++ s2) := by
  constructor
  · intro n
    exact ⟨rfl, rfl, "Actor ", " not found.", rfl⟩
  · intro n obj hne hid
    cases obj with
    | nil => exact absurd rfl hne
    | cons f fs =>
        refine ⟨?_, "Failed to get the Actor object ID for ", ".", rfl⟩
        simp [get_actor_id, hid]

theorem get_actor_id_errors_witness :
    get_actor_id "my-actor" (some [("name", "x")]) =
      Except.error ("Failed to get the Actor object ID for " ++ "my-actor" ++ ".") :=
  (get_actor_id_errors.2 "my-actor" [("name", "x")] (List.cons_ne_nil _ _) rfl).1

/-- C7: when no version carries the `latest` build tag, the source-file
retrieval returns a valid empty list instead of raising. -/
theorem get_actor_source_files_no_latest :
    ∀ (actorName : String) (resp : Option ActorObj) (versions : List ActorVersion) (i : String),
      get_actor_id actorName resp = Except.ok i →
      (∀ v ∈ versions, v.buildTag ≠ some "latest") →
      get_actor_source_files actorName resp versions = Except.ok [] := by
  intro n resp versions i hok hnone
  have hfind : versions.find? isLatestVersion = none := by
    rw [List.find?_eq_none]
    intro v hv
    simp only [isLatestVersion, beq_iff_eq]
    exact hnone v hv
  simp [get_actor_source_files, hok, hfind]

theorem get_actor_source_files_no_latest_witness :
    get_actor_source_files "n" (some [("id", "abc")]) [⟨some "beta", none⟩] = Except.ok [] :=
  get_actor_source_files_no_latest "n" (some [("id", "abc")]) [⟨some "beta", none⟩] "abc"
    rfl (by decide)

/-- C10: the retrieval keeps exactly the source files whose `format`
lowercases to `text`: the returned list is the filter of the selected
version's list, every returned file has such a format, and every file
with any other (or no) format is dropped. -/
theorem get_actor_source_files_text_filter :
    ∀ (actorName : String) (resp : Option ActorObj) (versions : List ActorVersion)
      (i : String) (v : ActorVersion) (sfs : List SourceFile),
      get_actor_id actorName resp = Except.ok i →
      versions.find? isLatestVersion = some v →
      v.sourceFiles = some sfs →
      get_actor_source_files actorName resp versions = Except.ok (sfs.filter isTextFormat) ∧
      (∀ f ∈ sfs.filter isTextFormat, strLower (f.format.getD "") = "text") ∧
      (∀ f ∈ sfs, strLower (f.format.getD "") ≠ "text" → f ∉ sfs.filter isTextFormat) := by
  intro n resp versions i v sfs hok hfind hsf
  refine ⟨by simp [get_actor_source_files, hok, hfind, hsf], ?_, ?_⟩
  · intro f hf
    have := List.of_mem_filter hf
    simpa [isTextFormat] using this
  · intro f _ hne hmem
    have := List.of_mem_filter hmem
    simp only [isTextFormat, beq_iff_eq] at this
    exact hne this

theorem get_actor_source_files_text_filter_witness :
    get_actor_source_files "n" (some [("id", "abc")])
      [⟨some "latest", some [⟨"main.py", some "TEXT"⟩, ⟨"logo.png", some "image"⟩,
        ⟨"misc", none⟩]⟩] =
      Except.ok [⟨"main.py", some "TEXT"⟩] := by
  have h := (get_actor_source_files_text_filter "n" (some [("id", "abc")])
    [⟨some "latest", some [⟨"main.py", some "TEXT"⟩, ⟨"logo.png", some "image"⟩,
      ⟨"misc", none⟩]⟩] "abc" _ _ rfl rfl rfl).1
  exact h.trans rfl

/-- C9: the declared pagination constraints of the search input schema
accept exactly the inputs with `limit` between 1 and 100 and
`offset` at least 0. -/
theorem validSearchInput_range :
    (∀ i : SearchRelatedActorsInput, validSearchInput i = true →
      1 ≤ i.limit ∧ i.limit ≤ 100 ∧ 0 ≤ i.offset) ∧
    (∀ i : SearchRelatedActorsInput, (i.limit < 1 ∨ 100 < i.limit ∨ i.offset < 0) →
      validSearchInput i = false) := by
  constructor
  · intro i h
    simp only [validSearchInput, Bool.and_eq_true, decide_eq_true_eq] at h
    omega
  · intro i h
    rw [Bool.eq_false_iff]
    intro htrue
    simp only [validSearchInput, Bool.and_eq_true, decide_eq_true_eq] at htrue
    omega

theorem validSearchInput_range_witness :
    (1 ≤ (⟨"q", 50, 3⟩ : SearchRelatedActorsInput).limit ∧
      (⟨"q", 50, 3⟩ : SearchRelatedActorsInput).limit ≤ 100 ∧
      0 ≤ (⟨"q", 50, 3⟩ : SearchRelatedActorsInput).offset) ∧
    validSearchInput ⟨"q", 0, 0⟩ = false :=
  ⟨validSearchInput_range.1 ⟨"q", 50, 3⟩ (by decide),
   validSearchInput_range.2 ⟨"q", 0, 0⟩ (Or.inl (by decide))⟩

/-! ## Missing name field (C6) -/

theorem gftAux_append (d : Dict) (l1 l2 : List (Option String)) :
    gftAux d (l1 ++ l2) = match gftAux d l1 with
      | Except.error e => Except.error e
      | Except.ok d2 => gftAux d2 l2 := by
  induction l1 generalizing d with
  | nil => simp [gftAux]
  | cons r rs ih =>
      simp only [List.cons_append, gftAux]
      cases insertRecord d r with
      | error e => rfl
      | ok d2 => exact ih d2

/-- C6: a record without the `name` key is never skipped: any list
containing one makes `generate_file_tree` raise, and when all records
before it process successfully the raised error is exactly the
`KeyError` for the missing field, raised at that record. -/
theorem generate_file_tree_missing_name :
    (∀ files : List (Option String), none ∈ files →
      ∃ e, generate_file_tree files = Except.error e) ∧
    (∀ (pre post : List (Option String)) (t : Dict),
      gftAux [] pre = Except.ok t →
      generate_file_tree (pre ++ none :: post) = Except.error keyErrorName) := by
  constructor
  · intro files hmem
    obtain ⟨pre, post, rfl⟩ := List.append_of_mem hmem
    rw [generate_file_tree, gftAux_append]
    cases h : gftAux [] pre with
    | error e => exact ⟨e, rfl⟩
    | ok d2 => exact ⟨keyErrorName, by simp [gftAux, insertRecord]⟩
  · intro pre post t hpre
    rw [generate_file_tree, gftAux_append, hpre]
    simp [gftAux, insertRecord]

theorem generate_file_tree_missing_name_witness :
    generate_file_tree [some "a", none, some "b"] = Except.error keyErrorName :=
  generate_file_tree_missing_name.2 [some "a"] [some "b"] [("a", Node.leaf)] rfl

/-! ## Path extension errors (C5): leaf-blocking lemmas -/

theorem splitSlashAux_ne_nil (cs acc : List Char) : splitSlashAux cs acc ≠ [] := by
  induction cs generalizing acc with
  | nil => simp [splitSlashAux]
  | cons c cs ih =>
      rw [splitSlashAux]
      by_cases h : c = '/'
      · simp [h]
      · simpa [h] using ih (c :: acc)

theorem splitSlash_ne_nil (s : String) : splitSlash s ≠ [] :=
  splitSlashAux_ne_nil s.data []

/-- Walking from the root hits a leaf marker at the end of some nonempty
initial run of the path `p` (possibly all of `p`). Such a leaf blocks
any later insertion of a strict extension of `p`. -/
def deadPath (d : Dict) (p : List String) : Prop :=
  ∃ q1 q2, p = q1 ++ q2 ∧ q1 ≠ [] ∧ leafAt d q1 = true

theorem leafAt_congr_head {d d2 : Dict} {x : String} (t : List String)
    (h : getKey d2 x = getKey d x) : leafAt d2 (x :: t) = leafAt d (x :: t) := by
  cases t with
  | nil => simp [leafAt, h]
  | cons y r => simp [leafAt, h]

theorem insertParts_getKey_other {d d2 : Dict} {part : String} {rest : List String}
    (hok : insertParts d part rest = Except.ok d2) {x : String} (hx : x ≠ part) :
    getKey d2 x = getKey d x := by
  cases rest with
  | nil =>
      simp only [insertParts, Except.ok.injEq] at hok
      rw [← hok]
      exact getKey_setKey_ne d _ hx
  | cons p' more =>
      cases hk : getKey d part with
      | none =>
          simp only [insertParts, hk] at hok
          cases hs : insertParts [] p' more with
          | error e => simp [hs] at hok
          | ok sub =>
              simp only [hs, Except.ok.injEq] at hok
              rw [← hok, getKey_append]
              cases hgx : getKey d x with
              | none => simp [getKey, Ne.symm hx]
              | some v => simp
      | some v =>
          cases v with
          | leaf => simp [insertParts, hk] at hok
          | dir sub =>
              simp only [insertParts, hk] at hok
              cases hs : insertParts sub p' more with
              | error e => simp [hs] at hok
              | ok sub2 =>
                  simp only [hs, Except.ok.injEq] at hok
                  rw [← hok]
                  exact getKey_setKey_ne d _ hx

theorem insertParts_ok_leafAt :
    ∀ (rest : List String) (d : Dict) (part : String) (d2 : Dict),
      insertParts d part rest = Except.ok d2 → leafAt d2 (part :: rest) = true := by
  intro rest
  induction rest with
  | nil =>
      intro d part d2 hok
      simp only [insertParts, Except.ok.injEq] at hok
      simp [leafAt, ← hok, getKey_setKey_self]
  | cons p' more ih =>
      intro d part d2 hok
      cases hk : getKey d part with
      | none =>
          simp only [insertParts, hk] at hok
          cases hs : insertParts [] p' more with
          | error e => simp [hs] at hok
          | ok sub =>
              simp only [hs, Except.ok.injEq] at hok
              have hkey : getKey d2 part = some (Node.dir sub) := by
                rw [← hok, getKey_append, hk]
                simp [getKey]
              simp [leafAt, hkey, ih [] p' sub hs]
      | some v =>
          cases v with
          | leaf => simp [insertParts, hk] at hok
          | dir sub =>
              simp only [insertParts, hk] at hok
              cases hs : insertParts sub p' more with
              | error e => simp [hs] at hok
              | ok sub2 =>
                  simp only [hs, Except.ok.injEq] at hok
                  have hkey : getKey d2 part = some (Node.dir sub2) := by
                    rw [← hok]
                    exact getKey_setKey_self d part _
                  simp [leafAt, hkey, ih sub p' sub2 hs]

theorem insertParts_preserves_deadPath :
    ∀ (p : List String) (d : Dict) (part : String) (rest : List String) (d2 : Dict),
      deadPath d p → insertParts d part rest = Except.ok d2 → deadPath d2 p := by
  intro p
  induction p with
  | nil =>
      intro d part rest d2 hd _
      obtain ⟨q1, q2, hpq, hne, _⟩ := hd
      exact absurd (List.append_eq_nil.mp hpq.symm).1 hne
  | cons x prest ih =>
      intro d part rest d2 hd hok
      obtain ⟨q1, q2, hpq, hne, hleaf⟩ := hd
      cases q1 with
      | nil => exact absurd rfl hne
      | cons y q1r =>
          rw [List.cons_append] at hpq
          injection hpq with hxy hprest
          subst hxy
          by_cases hpx : part = x
          · subst hpx
            cases rest with
            | nil =>
                simp only [insertParts, Except.ok.injEq] at hok
                refine ⟨[part], q1r ++ q2, by simp [hprest], by simp, ?_⟩
                simp [leafAt, ← hok, getKey_setKey_self]
            | cons p' more =>
                cases hk : getKey d part with
                | none =>
                    exfalso
                    cases q1r with
                    | nil => simp [leafAt, hk] at hleaf
                    | cons z zr => simp [leafAt, hk] at hleaf
                | some v =>
                    cases v with
                    | leaf => simp [insertParts, hk] at hok
                    | dir sub =>
                        simp only [insertParts, hk] at hok
                        cases hs : insertParts sub p' more with
                        | error e => simp [hs] at hok
                        | ok sub2 =>
                            simp only [hs, Except.ok.injEq] at hok
                            cases q1r with
                            | nil => simp [leafAt, hk] at hleaf
                            | cons z zr =>
                                have hlsub : leafAt sub (z :: zr) = true := by
                                  simpa [leafAt, hk] using hleaf
                                have hdsub : deadPath sub prest :=
                                  ⟨z :: zr, q2, by simp [hprest], by simp, hlsub⟩
                                obtain ⟨w1, w2, hw, hwne, hwleaf⟩ :=
                                  ih sub p' more sub2 hdsub hs
                                cases w1 with
                                | nil => exact absurd rfl hwne
                                | cons w wr =>
                                    refine ⟨part :: w :: wr, w2, by simp [hw], by simp, ?_⟩
                                    have hkey : getKey d2 part = some (Node.dir sub2) := by
                                      rw [← hok]
                                      exact getKey_setKey_self d part _
                                    simp [leafAt, hkey, hwleaf]
          · refine ⟨x :: q1r, q2, by simp [hprest], by simp, ?_⟩
            have hkeq : getKey d2 x = getKey d x :=
              insertParts_getKey_other hok (fun he => hpx he.symm)
            rw [leafAt_congr_head q1r hkeq]
            exact hleaf

theorem deadPath_insertParts_error :
    ∀ (q1 : List String) (d : Dict) (part : String) (rest : List String) (q2 : List String),
      q2 ≠ [] → leafAt d q1 = true → part :: rest = q1 ++ q2 →
      ∃ e, insertParts d part rest = Except.error e := by
  intro q1
  induction q1 with
  | nil =>
      intro d part rest q2 _ hleaf _
      simp [leafAt] at hleaf
  | cons x q1r ih =>
      intro d part rest q2 hq2 hleaf hsplit
      rw [List.cons_append] at hsplit
      injection hsplit with hpx hrest
      subst hpx
      cases q1r with
      | nil =>
          have hk : getKey d part = some Node.leaf := by
            revert hleaf
            cases hg : getKey d part with
            | none => simp [leafAt, hg]
            | some v => cases v <;> simp [leafAt, hg]
          rw [List.nil_append] at hrest
          cases q2 with
          | nil => exact absurd rfl hq2
          | cons y r =>
              subst hrest
              exact ⟨typeErrorNone, by simp [insertParts, hk]⟩
      | cons z zr =>
          have hk : ∃ sub, getKey d part = some (Node.dir sub) ∧ leafAt sub (z :: zr) = true := by
            revert hleaf
            cases hg : getKey d part with
            | none => simp [leafAt, hg]
            | some v =>
                cases v with
                | leaf => simp [leafAt, hg]
                | dir sub =>
                    intro hleaf
                    exact ⟨sub, rfl, by simpa [leafAt, hg] using hleaf⟩
          obtain ⟨sub, hksome, hlsub⟩ := hk
          rw [List.cons_append] at hrest
          cases hrr : rest with
          | nil => rw [hrr] at hrest; exact absurd hrest (by simp)
          | cons p' more =>
              rw [hrr] at hrest
              injection hrest with hz hmore
              subst hz
              obtain ⟨e, he⟩ := ih sub p' more q2 hq2 hlsub (by rw [hmore]; rfl)
              exact ⟨e, by simp [insertParts, hksome, he, hrr]⟩

theorem insertRecord_preserves_deadPath {t t2 : Dict} {p : List String} {r : Option String}
    (hd : deadPath t p) (h : insertRecord t r = Except.ok t2) : deadPath t2 p := by
  cases r with
  | none => simp [insertRecord] at h
  | some nm =>
      cases hsp : splitSlash nm with
      | nil =>
          simp only [insertRecord, hsp, Except.ok.injEq] at h
          rw [← h]
          exact hd
      | cons part rest =>
          simp only [insertRecord, hsp] at h
          exact insertParts_preserves_deadPath p t part rest t2 hd h

theorem deadPath_gftAux_error :
    ∀ (rs : List (Option String)) (t : Dict) (p : List String) (s2 : String),
      deadPath t p → some s2 ∈ rs →
      pathLe p (splitSlash s2) = true → p ≠ splitSlash s2 →
      ∃ e, gftAux t rs = Except.error e := by
  intro rs
  induction rs with
  | nil =>
      intro t p s2 _ hmem _ _
      simp at hmem
  | cons r rs2 ih =>
      intro t p s2 hd hmem hle hne
      cases hir : insertRecord t r with
      | error e => exact ⟨e, by simp [gftAux, hir]⟩
      | ok t2 =>
          rcases List.mem_cons.mp hmem with heq | hmem2
          · exfalso
            subst heq
            obtain ⟨q1, q2, hpq, hq1ne, hleaf⟩ := hd
            obtain ⟨extra, hext⟩ := (pathLe_iff_append p (splitSlash s2)).mp hle
            have hextne : extra ≠ [] := by
              intro h0
              rw [h0, List.append_nil] at hext
              exact hne hext.symm
            cases hsp : splitSlash s2 with
            | nil => exact splitSlash_ne_nil s2 hsp
            | cons part rest =>
                obtain ⟨e2, he2⟩ := deadPath_insertParts_error q1 t part rest (q2 ++ extra)
                  (by intro hc; exact hextne (List.append_eq_nil.mp hc).2) hleaf
                  (by rw [← hsp, hext, hpq, List.append_assoc])
                simp only [insertRecord, hsp] at hir
                rw [he2] at hir
                exact Except.noConfusion hir
          · obtain ⟨e2, he2⟩ := ih t2 p s2 (insertRecord_preserves_deadPath hd hir) hmem2 hle hne
            exact ⟨e2, by simp [gftAux, hir, he2]⟩

/-- C5: whenever some record's path strictly extends an earlier record's
full path by at least one extra segment, the traversal reaches the leaf
marker set for the earlier path (or fails even earlier) and
`generate_file_tree` raises an error instead of returning a tree. -/
theorem generate_file_tree_extension_error :
    ∀ (a b c : List (Option String)) (s s2 : String),
      pathLe (splitSlash s) (splitSlash s2) = true →
      splitSlash s ≠ splitSlash s2 →
      ∃ e, generate_file_tree (a ++ (some s :: (b ++ some s2 :: c))) = Except.error e := by
  intro a b c s s2 hle hne
  simp only [generate_file_tree]
  rw [gftAux_append]
  cases ha : gftAux [] a with
  | error e => exact ⟨e, rfl⟩
  | ok t =>
      cases hir : insertRecord t (some s) with
      | error e => exact ⟨e, by simp [gftAux, hir]⟩
      | ok t1 =>
          have hdp : deadPath t1 (splitSlash s) := by
            cases hsp : splitSlash s with
            | nil => exact absurd hsp (splitSlash_ne_nil s)
            | cons part rest =>
                refine ⟨part :: rest, [], by simp, by simp, ?_⟩
                apply insertParts_ok_leafAt rest t part t1
                simpa [insertRecord, hsp] using hir
          obtain ⟨e2, he2⟩ := deadPath_gftAux_error (b ++ some s2 :: c) t1 (splitSlash s) s2 hdp
            (by simp) hle hne
          exact ⟨e2, by simp [gftAux, hir, he2]⟩

theorem generate_file_tree_extension_error_witness :
    ∃ e, generate_file_tree [some "a", some "a/b"] = Except.error e :=
  generate_file_tree_extension_error [] [] [] "a" "a/b" (by decide) (by decide)

/-! ## Branch bookkeeping for the leaf-count and depth claim (C1) -/

/-- Well-formedness of a single node (duplicate-free keys at all levels of
a directory). -/
def wfNode : Node → Bool
  | Node.leaf => true
  | Node.dir d => wfD d

theorem wfD_cons_iff (k : String) (v : Node) (rest : Dict) :
    wfD ((k, v) :: rest) = true ↔
      getKey rest k = none ∧ wfNode v = true ∧ wfD rest = true := by
  cases v <;>
    simp [wfD, wfNode, Bool.and_eq_true, Option.isNone_iff_eq_none, and_assoc]

theorem wfD_getKey :
    ∀ (d : Dict) (k : String) (v : Node), wfD d = true → getKey d k = some v →
      wfNode v = true := by
  intro d
  induction d with
  | nil => intro k v _ hget; simp [getKey] at hget
  | cons e rest ih =>
      obtain ⟨k2, v2⟩ := e
      intro k v hwf hget
      rw [wfD_cons_iff] at hwf
      by_cases hk : k2 = k
      · rw [getKey, if_pos hk] at hget
        injection hget with hv
        rw [← hv]
        exact hwf.2.1
      · rw [getKey, if_neg hk] at hget
        exact ih k v hwf.2.2 hget

theorem wfD_setKey :
    ∀ (d : Dict) (k : String) (v : Node), wfD d = true → wfNode v = true →
      wfD (setKey d k v) = true := by
  intro d
  induction d with
  | nil =>
      intro k v _ hv
      simp [setKey, wfD_cons_iff, getKey, hv, wfD]
  | cons e rest ih =>
      obtain ⟨k2, v2⟩ := e
      intro k v hwf hv
      rw [wfD_cons_iff] at hwf
      obtain ⟨hn, hv2, hr⟩ := hwf
      by_cases hk : k2 = k
      · rw [setKey, if_pos hk, wfD_cons_iff]
        exact ⟨hk ▸ hn, hv, hr⟩
      · rw [setKey, if_neg hk, wfD_cons_iff]
        exact ⟨by rw [getKey_setKey_ne rest v hk]; exact hn,
          hv2, ih k v hr hv⟩

theorem wfD_append_new :
    ∀ (d : Dict) (k : String) (v : Node), wfD d = true → getKey d k = none →
      wfNode v = true → wfD (d ++ [(k, v)]) = true := by
  intro d
  induction d with
  | nil =>
      intro k v _ _ hv
      simp [wfD_cons_iff, getKey, hv, wfD]
  | cons e rest ih =>
      obtain ⟨k2, v2⟩ := e
      intro k v hwf hget hv
      rw [wfD_cons_iff] at hwf
      obtain ⟨hn, hv2, hr⟩ := hwf
      by_cases hk : k2 = k
      · rw [getKey, if_pos hk] at hget
        exact Option.noConfusion hget
      · rw [getKey, if_neg hk] at hget
        rw [List.cons_append, wfD_cons_iff]
        refine ⟨?_, hv2, ih k v hr hget hv⟩
        rw [getKey_append, hn]
        show getKey [(k, v)] k2 = none
        rw [getKey, if_neg (fun he => hk he.symm)]
        rfl

theorem branches_setKey_decomp :
    ∀ (d : Dict) (k : String) (v0 : Node), wfD d = true → getKey d k = some v0 →
      ∃ A B, branches d = A ++ ((nodeBranches v0).map (k :: ·) ++ B) ∧
        (∀ v, branches (setKey d k v) = A ++ ((nodeBranches v).map (k :: ·) ++ B)) ∧
        (∀ b, b ∈ A ∨ b ∈ B → ∀ t, b ≠ k :: t) := by
  intro d
  induction d with
  | nil => intro k v0 _ hget; simp [getKey] at hget
  | cons e rest ih =>
      obtain ⟨k2, v2⟩ := e
      intro k v0 hwf hget
      rw [wfD_cons_iff] at hwf
      obtain ⟨hn, hv2, hr⟩ := hwf
      by_cases hk : k2 = k
      · subst hk
        rw [getKey, if_pos rfl] at hget
        injection hget with hv0
        subst hv0
        refine ⟨[], branches rest, ?_, ?_, ?_⟩
        · rw [branches_cons]
          simp
        · intro v
          rw [setKey, if_pos rfl, branches_cons]
          simp
        · intro b hb t hbt
          rcases hb with hb | hb
          · simp at hb
          · subst hbt
            obtain ⟨v, hvmem, _⟩ := mem_branches_head hb
            rw [getKey_eq_none_iff] at hn
            exact hn v hvmem
      · rw [getKey, if_neg hk] at hget
        obtain ⟨A2, B2, hdec, hset, hnot⟩ := ih k v0 hr hget
        refine ⟨(nodeBranches v2).map (k2 :: ·) ++ A2, B2, ?_, ?_, ?_⟩
        · rw [branches_cons, hdec, List.append_assoc]
        · intro v
          rw [setKey, if_neg hk, branches_cons, hset v, List.append_assoc]
        · intro b hb t hbt
          rcases hb with hb | hb
          · rcases List.mem_append.mp hb with hb | hb
            · obtain ⟨t2, _, hbeq⟩ := List.mem_map.mp hb
              rw [hbt] at hbeq
              injection hbeq with hk2 _
              exact hk hk2
            · exact hnot b (Or.inl hb) t hbt
          · exact hnot b (Or.inr hb) t hbt

theorem insertParts_branches :
    ∀ (rest : List String) (d : Dict) (part : String),
      wfD d = true →
      (∀ b ∈ branches d, pathLe b (part :: rest) = true → b = part :: rest) →
      (∀ b ∈ branches d, pathLe (part :: rest) b = true → part :: rest = b) →
      ∃ d2, insertParts d part rest = Except.ok d2 ∧ wfD d2 = true ∧
        ((part :: rest) ∈ branches d → List.Perm (branches d2) (branches d)) ∧
        ((part :: rest) ∉ branches d →
          List.Perm (branches d2) ((part :: rest) :: branches d)) := by
  intro rest
  induction rest with
  | nil =>
      intro d part hwf hb1 hb2
      cases hk : getKey d part with
      | none =>
          refine ⟨setKey d part Node.leaf, rfl, wfD_setKey d part Node.leaf hwf rfl, ?_, ?_⟩
          · intro hmem
            exfalso
            obtain ⟨v, hvmem, _⟩ := mem_branches_head hmem
            rw [getKey_eq_none_iff] at hk
            exact hk v hvmem
          · intro _
            rw [setKey_of_getKey_none hk, branches_append]
            have hone : branches [(part, Node.leaf)] = [[part]] := by simp [branches]
            rw [hone]
            exact List.perm_append_singleton _ _
      | some v0 =>
          obtain ⟨A, B, hdec, hset, hnot⟩ := branches_setKey_decomp d part v0 hwf hk
          cases v0 with
          | leaf =>
              refine ⟨setKey d part Node.leaf, rfl,
                wfD_setKey d part Node.leaf hwf rfl, ?_, ?_⟩
              · intro _
                rw [hset Node.leaf, ← hdec]
              · intro hnmem
                exfalso
                apply hnmem
                rw [hdec]
                simp [nodeBranches]
          | dir sub =>
              have hsubnil : branches sub = [] := by
                cases hbs : branches sub with
                | nil => rfl
                | cons t ts =>
                    exfalso
                    have htsub : t ∈ branches sub := by
                      rw [hbs]
                      exact List.mem_cons_self _ _
                    have htmem : (part :: t) ∈ branches d := by
                      rw [hdec]
                      exact List.mem_append.mpr (Or.inr (List.mem_append.mpr (Or.inl
                        (List.mem_map.mpr ⟨t, htsub, rfl⟩))))
                    have heq := hb2 (part :: t) htmem (by simp [pathLe])
                    injection heq with _ ht
                    exact (mem_branches_ne_nil htsub) ht.symm
              refine ⟨setKey d part Node.leaf, rfl,
                wfD_setKey d part Node.leaf hwf rfl, ?_, ?_⟩
              · intro hmem
                exfalso
                rw [hdec] at hmem
                rcases List.mem_append.mp hmem with h | h
                · exact hnot _ (Or.inl h) [] rfl
                · rcases List.mem_append.mp h with h | h
                  · obtain ⟨t, ht, hteq⟩ := List.mem_map.mp h
                    simp only [nodeBranches, hsubnil] at ht
                    exact absurd ht (List.not_mem_nil t)
                  · exact hnot _ (Or.inr h) [] rfl
              · intro _
                rw [hset Node.leaf, hdec]
                simp only [nodeBranches, hsubnil, List.map_nil, List.nil_append,
                  List.map_cons, List.singleton_append]
                exact List.perm_middle
  | cons q more ih =>
      intro d part hwf hb1 hb2
      cases hk : getKey d part with
      | none =>
          obtain ⟨sub, hsubok, hsubwf, _, hsubperm⟩ := ih [] q (by simp [wfD])
            (fun b hb => by simp [branches] at hb)
            (fun b hb => by simp [branches] at hb)
          have hperm : List.Perm (branches sub) [q :: more] := by
            simpa [branches] using hsubperm (by simp [branches])
          refine ⟨d ++ [(part, Node.dir sub)], ?_, ?_, ?_, ?_⟩
          · simp only [insertParts, hk, hsubok]
          · exact wfD_append_new d part (Node.dir sub) hwf hk hsubwf
          · intro hmem
            exfalso
            obtain ⟨v, hvmem, _⟩ := mem_branches_head hmem
            rw [getKey_eq_none_iff] at hk
            exact hk v hvmem
          · intro _
            rw [branches_append]
            have hone : branches [(part, Node.dir sub)] = (branches sub).map (part :: ·) := by
              simp [branches]
            rw [hone]
            exact (List.Perm.append_left (branches d) (hperm.map (part :: ·))).trans
              (List.perm_append_singleton _ _)
      | some v0 =>
          obtain ⟨A, B, hdec, hset, hnot⟩ := branches_setKey_decomp d part v0 hwf hk
          cases v0 with
          | leaf =>
              exfalso
              have hmem : [part] ∈ branches d := by
                rw [hdec]
                simp [nodeBranches]
              have heq := hb1 [part] hmem (by simp [pathLe])
              injection heq with _ hnil
              exact List.noConfusion hnil
          | dir sub =>
              have hsubwf : wfD sub = true := by
                have := wfD_getKey d part (Node.dir sub) hwf hk
                simpa [wfNode] using this
              have hmemtrans : ∀ t ∈ branches sub, (part :: t) ∈ branches d := by
                intro t ht
                rw [hdec]
                exact List.mem_append.mpr (Or.inr (List.mem_append.mpr (Or.inl
                  (List.mem_map.mpr ⟨t, ht, rfl⟩))))
              obtain ⟨sub2, hs2ok, hs2wf, hs2in, hs2out⟩ := ih sub q hsubwf
                (fun b hb hle => by
                  have heq := hb1 (part :: b) (hmemtrans b hb)
                    (by rw [pathLe_cons]; exact ⟨rfl, hle⟩)
                  simpa using heq)
                (fun b hb hle => by
                  have heq := hb2 (part :: b) (hmemtrans b hb)
                    (by rw [pathLe_cons]; exact ⟨rfl, hle⟩)
                  simpa using heq)
              refine ⟨setKey d part (Node.dir sub2), ?_, ?_, ?_, ?_⟩
              · simp only [insertParts, hk, hs2ok]
              · exact wfD_setKey d part (Node.dir sub2) hwf (by simpa [wfNode] using hs2wf)
              · intro hmem
                have hqm : (q :: more) ∈ branches sub := by
                  rw [hdec] at hmem
                  rcases List.mem_append.mp hmem with h | h
                  · exact absurd rfl (hnot _ (Or.inl h) (q :: more))
                  · rcases List.mem_append.mp h with h | h
                    · obtain ⟨t, ht, hteq⟩ := List.mem_map.mp h
                      injection hteq with _ h2
                      exact h2 ▸ ht
                    · exact absurd rfl (hnot _ (Or.inr h) (q :: more))
                have hp2 := hs2in hqm
                rw [hset (Node.dir sub2), hdec]
                exact List.Perm.append_left A (List.Perm.append_right B (hp2.map _))
              · intro hnmem
                have hqm : (q :: more) ∉ branches sub := by
                  intro hin
                  apply hnmem
                  rw [hdec]
                  exact List.mem_append.mpr (Or.inr (List.mem_append.mpr (Or.inl
                    (List.mem_map.mpr ⟨q :: more, hin, rfl⟩))))
                have hp2 := hs2out hqm
                rw [hset (Node.dir sub2), hdec]
                refine List.Perm.trans
                  (List.Perm.append_left A (List.Perm.append_right B (hp2.map (part :: ·)))) ?_
                exact List.perm_middle

/-- Pairwise freeness of the path list: no path is an initial run of a
different path (the precondition under which the tree build is total
and lossless; violated inputs are covered by the extension-error and
overwrite results). -/
def pathsIndep (l : List (List String)) : Prop :=
  ∀ p ∈ l, ∀ q ∈ l, pathLe p q = true → p = q

theorem pathsIndep_of_mem_iff {l1 l2 : List (List String)}
    (h : ∀ x, x ∈ l1 ↔ x ∈ l2) (hp : pathsIndep l2) : pathsIndep l1 :=
  fun p hp1 q hq1 hle => hp p ((h p).mp hp1) q ((h q).mp hq1) hle

theorem gftAux_branches :
    ∀ (names : List String) (t : Dict) (done : List (List String)),
      wfD t = true →
      (∀ b, b ∈ branches t ↔ b ∈ done) →
      (branches t).Nodup →
      (branches t).length = done.toFinset.card →
      pathsIndep (done ++ names.map splitSlash) →
      ∃ t2, gftAux t (names.map some) = Except.ok t2 ∧ wfD t2 = true ∧
        (∀ b, b ∈ branches t2 ↔ b ∈ done ++ names.map splitSlash) ∧
        (branches t2).Nodup ∧
        (branches t2).length = (done ++ names.map splitSlash).toFinset.card := by
  intro names
  induction names with
  | nil =>
      intro t done hwf hmem hnd hlen _
      exact ⟨t, rfl, hwf, by simpa using hmem, hnd, by simpa using hlen⟩
  | cons n ns ih =>
      intro t done hwf hmem hnd hlen hpf
      cases hsp : splitSlash n with
      | nil => exact absurd hsp (splitSlash_ne_nil n)
      | cons part rest =>
          have hpmem : (part :: rest) ∈ done ++ (n :: ns).map splitSlash := by
            rw [← hsp]
            simp
          obtain ⟨t1, hok, hwf1, hin, hout⟩ := insertParts_branches rest t part hwf
            (fun b hb hle => hpf b
              (List.mem_append.mpr (Or.inl ((hmem b).mp hb))) (part :: rest) hpmem hle)
            (fun b hb hle => hpf (part :: rest) hpmem b
              (List.mem_append.mpr (Or.inl ((hmem b).mp hb))) hle)
          have hkey : (∀ b, b ∈ branches t1 ↔ b ∈ done ++ [part :: rest]) ∧
              (branches t1).Nodup ∧
              (branches t1).length = (done ++ [part :: rest]).toFinset.card := by
            by_cases hp : (part :: rest) ∈ branches t
            · have hperm := hin hp
              have hpdone : (part :: rest) ∈ done := (hmem _).mp hp
              have hfin : (done ++ [part :: rest]).toFinset = done.toFinset := by
                ext x
                simp only [List.mem_toFinset, List.mem_append, List.mem_singleton]
                constructor
                · rintro (h | rfl)
                  · exact h
                  · exact hpdone
                · exact Or.inl
              refine ⟨?_, (hperm.nodup_iff).mpr hnd, ?_⟩
              · intro b
                rw [hperm.mem_iff, hmem b]
                simp only [List.mem_append, List.mem_singleton]
                constructor
                · exact Or.inl
                · rintro (h | rfl)
                  · exact h
                  · exact hpdone
              · rw [hperm.length_eq, hlen, hfin]
            · have hperm := hout hp
              have hpdone : (part :: rest) ∉ done := fun hin2 => hp ((hmem _).mpr hin2)
              have hfin : (done ++ [part :: rest]).toFinset =
                  insert (part :: rest) done.toFinset := by
                ext x
                simp only [List.mem_toFinset, List.mem_append, List.mem_singleton,
                  Finset.mem_insert]
                tauto
              refine ⟨?_, (hperm.nodup_iff).mpr (List.nodup_cons.mpr ⟨hp, hnd⟩), ?_⟩
              · intro b
                rw [hperm.mem_iff]
                simp only [List.mem_cons, List.mem_append, List.mem_singleton, hmem b]
                tauto
              · rw [hperm.length_eq]
                simp only [List.length_cons, hlen, hfin]
                rw [Finset.card_insert_of_not_mem
                  (by simpa only [List.mem_toFinset] using hpdone)]
          obtain ⟨hmem1, hnd1, hlen1⟩ := hkey
          have hpf1 : pathsIndep ((done ++ [part :: rest]) ++ ns.map splitSlash) := by
            refine pathsIndep_of_mem_iff ?_ hpf
            intro x
            simp only [List.mem_append, List.mem_singleton, List.map_cons, List.mem_cons, hsp]
            tauto
          obtain ⟨t2, hok2, hwf2, hmem2, hnd2, hlen2⟩ :=
            ih t1 (done ++ [part :: rest]) hwf1 hmem1 hnd1 hlen1 hpf1
          have hirec : insertRecord t (some n) = Except.ok t1 := by
            simp only [insertRecord, hsp]
            exact hok
          refine ⟨t2, ?_, hwf2, ?_, hnd2, ?_⟩
          · simp only [List.map_cons, gftAux, hirec]
            exact hok2
          · intro b
            rw [hmem2 b]
            simp only [List.mem_append, List.mem_singleton, List.map_cons, List.mem_cons, hsp]
            tauto
          · rw [hlen2]
            have hfin2 : ((done ++ [part :: rest]) ++ ns.map splitSlash).toFinset =
                (done ++ (n :: ns).map splitSlash).toFinset := by
              ext x
              simp only [List.mem_toFinset, List.mem_append, List.mem_singleton,
                List.map_cons, List.mem_cons, hsp]
              tauto
            rw [hfin2]

/-- C1 (amended): for every record list whose slash-split paths are
pairwise free of strict initial-run (prefix) relations, the tree build
succeeds, its number of leaf markers equals the number of distinct
full paths, and the depth of every branch of the mapping (its key
count) equals the maximum segment count among the input paths lying
along that branch. -/
theorem generate_file_tree_leafCount_depth :
    ∀ names : List String,
      (∀ p ∈ names.map splitSlash, ∀ q ∈ names.map splitSlash,
        pathLe p q = true → p = q) →
      ∃ t, generate_file_tree (names.map some) = Except.ok t ∧
        leafCount t = (names.map splitSlash).toFinset.card ∧
        (∀ b ∈ branches t, b ∈ names.map splitSlash ∧
          (∀ p ∈ names.map splitSlash, pathLe p b = true → p.length ≤ b.length) ∧
          (∃ p ∈ names.map splitSlash, pathLe p b = true ∧ p.length = b.length)) := by
  intro names hpf
  obtain ⟨t, hok, _, hmem, _, hlen⟩ := gftAux_branches names [] []
    (by simp [wfD]) (by simp [branches]) (by simp [branches]) (by simp [branches])
    (by simpa [pathsIndep] using hpf)
  refine ⟨t, hok, ?_, ?_⟩
  · rw [leafCount_eq_length_branches, hlen]
    simp
  · intro b hb
    have hbm : b ∈ names.map splitSlash := by
      have := (hmem b).mp hb
      simpa using this
    exact ⟨hbm, fun p _ hle => pathLe_length hle, ⟨b, hbm, pathLe_refl b, rfl⟩⟩

theorem generate_file_tree_leafCount_depth_witness :
    ∃ t, generate_file_tree (["a/b", "a/c", "x"].map some) = Except.ok t ∧
      leafCount t = ((["a/b", "a/c", "x"].map splitSlash).toFinset.card) ∧
      (∀ b ∈ branches t, b ∈ ["a/b", "a/c", "x"].map splitSlash ∧
        (∀ p ∈ ["a/b", "a/c", "x"].map splitSlash,
          pathLe p b = true → p.length ≤ b.length) ∧
        (∃ p ∈ ["a/b", "a/c", "x"].map splitSlash,
          pathLe p b = true ∧ p.length = b.length)) :=
  generate_file_tree_leafCount_depth ["a/b", "a/c", "x"] (by decide)

/-- C1 counterexample: on the records `["a/b", "a"]` (whose names are
slash-delimited path strings) the build succeeds with the single-leaf
tree `{a: leaf}`, yet the input has two distinct full paths, so the
leaf-count equality of the claim fails on this input. -/
theorem generate_file_tree_leafCount_counterexample :
    generate_file_tree (["a/b", "a"].map some) = Except.ok [("a", Node.leaf)] ∧
    leafCount [("a", Node.leaf)] = 1 ∧
    (["a/b", "a"].map splitSlash).toFinset.card = 2 ∧
    leafCount [("a", Node.leaf)] ≠ (["a/b", "a"].map splitSlash).toFinset.card := by
  refine ⟨rfl, by simp [leafCount], by decide, ?_⟩
  intro h
  rw [show leafCount [("a", Node.leaf)] = 1 by simp [leafCount],
    show (["a/b", "a"].map splitSlash).toFinset.card = 2 by decide] at h
  exact absurd h (by decide)
